import Mathlib

/-!
Verification of the CUDA device-side parallel reduction engine in
`packages/kokkos/MDArray/src/Kokkos_CudaDeviceReduce.hpp`.

The embedding is a shallow functional model of the source:

* machine loops are modelled by structurally recursive functions; loops whose
  termination depends on the data (the two shrink loops of
  `cuda_parallel_reduce` and the grid-stride work loop) carry an explicit fuel
  argument, and sufficiency lemmas show the fuel chosen by the wrappers is
  enough whenever the C++ loop terminates.  Fuel exhaustion is reported as
  `none` for the shrink loops, which is how host-side non-termination of the
  source is made visible;
* a reduction functor (`FunctorType` in the source) is a record of its
  `init`, `operator()` and `join` members, acting on a value type `α`;
* the per-lane shared-memory slots are a function `Nat → α`; one simultaneous
  round of the tree combiner reads the upper half and writes the lower half,
  so the parallel update is the pointwise `treeStep`;
* non-negative machine integers (`size_t`, `unsigned`) are `Nat`; the widths
  never overflow in the quantities handled here (counts and indices), and the
  comparisons `<=`, `<` and shifts `>> 1` are the `Nat` operations.
-/

/-- A reduction functor (`FunctorType` of the source): `init` writes the
initial aggregate, `apply` is `operator()(iwork, value)` folding one work item
into the running aggregate, `join` is `ReduceOperators::join`. -/
structure ReduceFunctor (α : Type) where
  init : α
  apply : Nat → α → α
  join : α → α → α

/-- `CudaWordCount<ValueType>::value = (sizeof(ValueType) + sizeof(word) - 1) / sizeof(word)`
with `sizeof(CudaWordType) = 4`. -/
def CudaWordCount (byteSize : Nat) : Nat := (byteSize + 4 - 1) / 4

/-- `CudaSharedMemoryReduceType::SharedMemoryBanks` (line 65 of the source). -/
def sharedMemoryBanks : Nat := 32

/-- Number of words in `CudaSharedMemoryReduceType<ValueType>::storage`:
`WordCount + (WordCount % SharedMemoryBanks ? 0 : 1)` (line 69 of the source;
the C ternary yields `0` when the remainder is non-zero and `1` when it is
zero). -/
def sharedStorageWords (byteSize : Nat) : Nat :=
  CudaWordCount byteSize +
    (if CudaWordCount byteSize % sharedMemoryBanks = 0 then 1 else 0)

/-- One simultaneous round of `reduce_shared_on_cuda` at offset `j`:
every lane `i < j` performs `join(slot[i], slot[i+j])` into its own slot.
Readers touch only slots `≥ j` and writers only slots `< j`, so the
simultaneous hardware update equals this pointwise function. -/
def treeStep {α : Type} (join : α → α → α) (s : Nat → α) (j : Nat) : Nat → α :=
  fun i => if i < j then join (s i) (s (i + j)) else s i

/-- The loop of `reduce_shared_on_cuda` (lines 108-121): `j` starts at the
lane count, each iteration halves `j` (`j >>= 1`) and then lanes `i < j`
combine with the slot `j` away.  The loop runs at most `j₀` iterations, so a
fuel of `j₀` is always sufficient (`treeLoopFuel_adequate`). -/
def treeLoopFuel {α : Type} (join : α → α → α) : Nat → Nat → (Nat → α) → Nat → α
  | 0, _, s => s
  | _ + 1, 0, s => s
  | fuel + 1, j + 1, s =>
      treeLoopFuel join fuel ((j + 1) / 2) (treeStep join s ((j + 1) / 2))

/-- `reduce_shared_on_cuda` with `laneCount` lanes: final slot assignment. -/
def reduce_shared_on_cuda {α : Type} (join : α → α → α) (laneCount : Nat)
    (s : Nat → α) : Nat → α :=
  treeLoopFuel join laneCount laneCount s

/-- The grid-stride loop body of `run_reduce_functor_on_cuda` (lines 170-173):
indices `iwork = g, g + stride, g + 2·stride, …` while `iwork < workCount`.
Each iteration consumes one fuel; `workCount` fuel is always sufficient for a
positive stride (`strideIndicesFuel_adequate`). -/
def strideIndicesFuel (stride workCount : Nat) : Nat → Nat → List Nat
  | 0, _ => []
  | fuel + 1, g =>
      if g < workCount then g :: strideIndicesFuel stride workCount fuel (g + stride)
      else []

/-- The list of work indices visited by the lane with global index `g` when
`stride` total lanes are launched (grid-stride loop of
`run_reduce_functor_on_cuda`). -/
def strideIndices (g stride workCount : Nat) : List Nat :=
  strideIndicesFuel stride workCount workCount g

/-- The aggregate held in one lane's shared slot after
`FunctorType::init` and the grid-stride loop of `run_reduce_functor_on_cuda`
(lines 166-173): the fold of `operator()` over the lane's indices. -/
def laneValue {α : Type} (f : ReduceFunctor α) (stride workCount g : Nat) : α :=
  (strideIndices g stride workCount).foldl (fun a i => f.apply i a) f.init

/-- Shared slots of block `b` in a launch of `blocks × threads` lanes, before
the tree combine: lane `t` starts at `iwork = threadIdx.x + blockDim.x * blockIdx.x`
with stride `blockDim.x * gridDim.x`. -/
def kernelLaneSlots {α : Type} (f : ReduceFunctor α)
    (blocks threads workCount b : Nat) : Nat → α :=
  fun t => laneValue f (threads * blocks) workCount (t + threads * b)

/-- Value left in lane 0's slot of block `b` by `run_reduce_functor_on_cuda`
(init, grid-stride loop, then `reduce_shared_on_cuda`). -/
def run_reduce_functor_block_value {α : Type} (f : ReduceFunctor α)
    (blocks threads workCount b : Nat) : α :=
  reduce_shared_on_cuda f.join threads (kernelLaneSlots f blocks threads workCount b) 0

/-- The partial-aggregate buffer written by phase 1 of the multi-block path:
`CudaParallelReduceFinalizeBlock` has every lane of block `blockIdx.x`
cooperatively copy lane 0's combined slot into `block_value + blockIdx.x`
(lines 233-255), so slot `b` holds block `b`'s combined partial aggregate. -/
def phase1PartialBuffer {α : Type} (f : ReduceFunctor α)
    (blockCount threads workCount : Nat) : Nat → α :=
  fun b => run_reduce_functor_block_value f blockCount threads workCount b

/-- Value left in lane 0's slot by `run_reduce_operator_on_cuda` (lines
129-149): the block results are copied into shared memory (the coalesced word
copy of lines 140-144 restores slot `c` to partial aggregate `c`) and reduced
by `reduce_shared_on_cuda` with `blockDim.x = blockCount` lanes. -/
def run_reduce_operator_result {α : Type} (join : α → α → α)
    (blockCount : Nat) (buffer : Nat → α) : α :=
  reduce_shared_on_cuda join blockCount buffer 0

/-- The single-block shrink loop of `cuda_parallel_reduce` (line 289):
`while (work_count <= (thread_count >> 1)) thread_count >>= 1;`.
`none` means the fuel ran out, i.e. the C++ loop has not exited within that
many iterations. -/
def shrinkThreadsFuel (workCount : Nat) : Nat → Nat → Option Nat
  | 0, _ => none
  | fuel + 1, tc =>
      if workCount ≤ tc / 2 then shrinkThreadsFuel workCount fuel (tc / 2)
      else some tc

/-- The multi-block shrink loop of `cuda_parallel_reduce` (lines 309-311):
`while (work_count <= max_thread_count * (block_count >> 1)) block_count >>= 1;`. -/
def shrinkBlocksFuel (maxThreads workCount : Nat) : Nat → Nat → Option Nat
  | 0, _ => none
  | fuel + 1, bc =>
      if workCount ≤ maxThreads * (bc / 2) then
        shrinkBlocksFuel maxThreads workCount fuel (bc / 2)
      else some bc

/-- The aggregate that `cuda_parallel_reduce` (lines 265-328) hands to the
serial finalize functor, as a function of the device limits
`maxThreads = CudaDevice::reduction_thread_max(...)` and
`maxBlocks = CudaDevice::block_count_max()`.  `none` when a shrink loop does
not terminate within its (sufficient, see `shrinkThreadsFuel_some`) fuel.
The initial block count is `block_count_max` clamped to `max_thread_count`
(line 306), i.e. `min maxBlocks maxThreads`. -/
def cuda_parallel_reduce {α : Type} (f : ReduceFunctor α)
    (maxThreads maxBlocks workCount : Nat) : Option α :=
  if workCount < maxThreads then
    (shrinkThreadsFuel workCount (maxThreads + 1) maxThreads).map fun tc =>
      run_reduce_functor_block_value f 1 tc workCount 0
  else
    (shrinkBlocksFuel maxThreads workCount (min maxBlocks maxThreads + 1)
        (min maxBlocks maxThreads)).map fun bc =>
      run_reduce_operator_result f.join bc (phase1PartialBuffer f bc maxThreads workCount)

/-- The two finalize strategies of the source: `CudaParallelReduceFinalizeFunctor`
(deliver to the user's serial callback) and `CudaParallelReduceFinalizeBlock`
(store the block's partial aggregate). -/
inductive FinalizeKind : Type
  | deliver : FinalizeKind
  | store : FinalizeKind
deriving DecidableEq, Repr

/-- Host-side actions performed by `cuda_parallel_reduce`, in program order. -/
inductive PlanAction : Type
  | allocBuf : Nat → PlanAction
  | launchKernel : Nat → Nat → FinalizeKind → PlanAction
  | deallocBuf : PlanAction
deriving DecidableEq, Repr

/-- Whether a planner action is a kernel launch. -/
def PlanAction.isLaunch : PlanAction → Bool
  | PlanAction.launchKernel _ _ _ => true
  | _ => false

/-- Whether a planner action is a scratch-buffer allocation. -/
def PlanAction.isAlloc : PlanAction → Bool
  | PlanAction.allocBuf _ => true
  | _ => false

/-- Whether a planner action is a scratch-buffer deallocation. -/
def PlanAction.isDealloc : PlanAction → Bool
  | PlanAction.deallocBuf => true
  | _ => false

/-- Host actions of `cuda_parallel_reduce` in source order: the single-block
path launches once; the multi-block path allocates the partial-aggregate
buffer of `block_count` slots (line 315), launches
`run_reduce_functor_on_cuda` with `block_count × max_thread_count` lanes and
the store finalize (lines 317-319), launches `run_reduce_operator_on_cuda`
with `1 × block_count` lanes and the deliver finalize (lines 322-324), then
deallocates (line 326).  The second component is `false` when the run failed.
`allocOk = false` models a failing `CudaDevice::allocate_memory` call.
Modelled from the spec: `allocate_memory` is external to the sampled sources;
per the spec its failure is fatal and propagates to the caller before any
kernel launch, leaving no partial state, so the failing branch performs no
action. -/
def cuda_parallel_reduce_actions (allocOk : Bool)
    (maxThreads maxBlocks workCount : Nat) : Option (List PlanAction × Bool) :=
  if workCount < maxThreads then
    (shrinkThreadsFuel workCount (maxThreads + 1) maxThreads).map fun tc =>
      ([PlanAction.launchKernel 1 tc FinalizeKind.deliver], true)
  else
    (shrinkBlocksFuel maxThreads workCount (min maxBlocks maxThreads + 1)
        (min maxBlocks maxThreads)).map fun bc =>
      if allocOk then
        ([PlanAction.allocBuf bc,
          PlanAction.launchKernel bc maxThreads FinalizeKind.store,
          PlanAction.launchKernel 1 bc FinalizeKind.deliver,
          PlanAction.deallocBuf], true)
      else ([], false)

/-- The guard of `CudaParallelReduceFinalizeFunctor::operator()` (line 202):
`1 == gridDim.x && 0 == threadIdx.x`. -/
def deliverGuard (gridDim threadIdx : Nat) : Bool :=
  gridDim == 1 && threadIdx == 0

/-- Number of lanes of a `blocks × threads` launch on which the deliver
finalize invokes the user's serial callback: every lane runs the guard of
line 202, and each block contains one lane per `threadIdx < threads`. -/
def deliverInvocations (blocks threads : Nat) : Nat :=
  blocks * ((List.range threads).filter (fun t => deliverGuard blocks t)).length

/-- Number of user-callback invocations made by
`CudaParallelReduceFinalizeBlock::operator()` (lines 233-255): its body only
copies storage words into the partial buffer and contains no user callback. -/
def storeInvocations (blocks threads : Nat) : Nat := 0

/-- Total number of invocations of the user's serial finalize callback in one
complete `cuda_parallel_reduce` run, per path and launch shape. -/
def runUserInvocations (maxThreads maxBlocks workCount : Nat) : Option Nat :=
  if workCount < maxThreads then
    (shrinkThreadsFuel workCount (maxThreads + 1) maxThreads).map fun tc =>
      deliverInvocations 1 tc
  else
    (shrinkBlocksFuel maxThreads workCount (min maxBlocks maxThreads + 1)
        (min maxBlocks maxThreads)).map fun bc =>
      storeInvocations bc maxThreads + deliverInvocations 1 bc

/-- The generic engine entry as used by both `ParallelReduce` specializations:
run `cuda_parallel_reduce` and hand the delivered aggregate once to the given
finalize sink, which transforms a sink state. -/
def cudaParallelReduceWith {α σ : Type} (f : ReduceFunctor α)
    (sink : α → σ → σ) (s0 : σ) (maxThreads maxBlocks workCount : Nat) :
    Option σ :=
  (cuda_parallel_reduce f maxThreads maxBlocks workCount).map fun v => sink v s0

/-- `ParallelReduce<FunctorType, void, CudaDevice>::run` (lines 338-351):
create a device value view (an empty holder), run `cuda_parallel_reduce`
with the view as the finalize sink (the serial finalize assigns the delivered
aggregate into it), then `deep_copy` the holder back to the host. -/
def parallel_reduce_run_value {α : Type} (f : ReduceFunctor α)
    (maxThreads maxBlocks workCount : Nat) : Option α :=
  (cudaParallelReduceWith f (fun v _ => some v) (none : Option α)
      maxThreads maxBlocks workCount).bind id

/-- `ParallelReduce<FunctorType, FinalizeType, CudaDevice>::run` (lines
361-364): delegate directly to `cuda_parallel_reduce` with the caller's
finalize sink. -/
def parallel_reduce_run_finalize {α σ : Type} (f : ReduceFunctor α)
    (sink : α → σ → σ) (s0 : σ) (maxThreads maxBlocks workCount : Nat) :
    Option σ :=
  cudaParallelReduceWith f sink s0 maxThreads maxBlocks workCount

/-- Sequential reference reduction, following the spec's words: fold the
contribution function's apply operation over `[0, workCount)` starting from
the identity value. -/
def specSequentialReduce {α : Type} (f : ReduceFunctor α) (workCount : Nat) : α :=
  (List.range workCount).foldl (fun a i => f.apply i a) f.init

/-- Fold of all `L` lane slots, following the spec's words for the tree
combiner's result: `s 0 ⊕ s 1 ⊕ … ⊕ s (L-1)` (meaningful for `L ≥ 1`). -/
def specFoldLanes {α : Type} (join : α → α → α) (s : Nat → α) (L : Nat) : α :=
  ((List.range' 1 (L - 1)).map s).foldl join (s 0)

/-- The counting functor used for concrete evaluations: each work item
contributes `1` to a running sum. -/
def sumRF : ReduceFunctor Nat :=
  { init := 0, apply := fun _ a => a + 1, join := fun a b => a + b }

/-! ### Shrink-loop lemmas -/

/-- With `work_count = 0` the guard `work_count <= thread_count >> 1` always
holds, so the single-block shrink loop never exits, whatever the fuel. -/
theorem shrinkThreadsFuel_zeroWork : ∀ (fuel tc : Nat),
    shrinkThreadsFuel 0 fuel tc = none := by
  intro fuel
  induction fuel with
  | zero => intro tc; rfl
  | succ n ih => intro tc; simp [shrinkThreadsFuel, ih]

/-- With `work_count = 0` the multi-block shrink loop never exits either. -/
theorem shrinkBlocksFuel_zeroWork : ∀ (mt fuel bc : Nat),
    shrinkBlocksFuel mt 0 fuel bc = none := by
  intro mt fuel
  induction fuel with
  | zero => intro bc; rfl
  | succ n ih => intro bc; simp [shrinkBlocksFuel, ih]

/-- For positive work the single-block shrink loop exits within `tc`
iterations, and its result stays in `[1, tc]`. -/
theorem shrinkThreadsFuel_some {N : Nat} (hN : 1 ≤ N) :
    ∀ tc fuel, 1 ≤ tc → tc < fuel →
      ∃ r, shrinkThreadsFuel N fuel tc = some r ∧ 1 ≤ r ∧ r ≤ tc := by
  intro tc
  induction tc using Nat.strong_induction_on with
  | _ tc ih =>
    intro fuel h1 hf
    obtain ⟨f, rfl⟩ : ∃ f, fuel = f + 1 := ⟨fuel - 1, by omega⟩
    by_cases hg : N ≤ tc / 2
    · have h2 : 1 ≤ tc / 2 := le_trans hN hg
      have hlt : tc / 2 < tc := Nat.div_lt_self (by omega) (by omega)
      obtain ⟨r, hr, hr1, hr2⟩ := ih (tc / 2) hlt f h2 (by omega)
      exact ⟨r, by simpa [shrinkThreadsFuel, hg] using hr, hr1, le_trans hr2 (by omega)⟩
    · exact ⟨tc, by simp [shrinkThreadsFuel, hg], h1, le_refl tc⟩

/-- For positive work the multi-block shrink loop exits within `bc`
iterations, with a result in `[1, bc]`. -/
theorem shrinkBlocksFuel_some {mt N : Nat} (hN : 1 ≤ N) :
    ∀ bc fuel, 1 ≤ bc → bc < fuel →
      ∃ r, shrinkBlocksFuel mt N fuel bc = some r ∧ 1 ≤ r ∧ r ≤ bc := by
  intro bc
  induction bc using Nat.strong_induction_on with
  | _ bc ih =>
    intro fuel h1 hf
    obtain ⟨f, rfl⟩ : ∃ f, fuel = f + 1 := ⟨fuel - 1, by omega⟩
    by_cases hg : N ≤ mt * (bc / 2)
    · have h2 : 1 ≤ bc / 2 := by
        rcases Nat.eq_zero_or_pos (bc / 2) with h | h
        · rw [h, Nat.mul_zero] at hg; omega
        · exact h
      have hlt : bc / 2 < bc := Nat.div_lt_self (by omega) (by omega)
      obtain ⟨r, hr, hr1, hr2⟩ := ih (bc / 2) hlt f h2 (by omega)
      exact ⟨r, by simpa [shrinkBlocksFuel, hg] using hr, hr1, le_trans hr2 (by omega)⟩
    · exact ⟨bc, by simp [shrinkBlocksFuel, hg], h1, le_refl bc⟩

/-- Starting from a power of two, the single-block shrink loop returns a
(smaller or equal) power of two, for positive work. -/
theorem shrinkThreadsFuel_pow2 {N : Nat} (hN : 1 ≤ N) :
    ∀ p fuel, 2 ^ p < fuel →
      ∃ q, q ≤ p ∧ shrinkThreadsFuel N fuel (2 ^ p) = some (2 ^ q) := by
  intro p
  induction p with
  | zero =>
    intro fuel hf
    obtain ⟨f, rfl⟩ : ∃ f, fuel = f + 1 := ⟨fuel - 1, by omega⟩
    refine ⟨0, le_refl 0, ?_⟩
    simp only [shrinkThreadsFuel]
    rw [if_neg (by intro h; simp at h; omega)]
  | succ p ih =>
    intro fuel hf
    have hpos : 0 < 2 ^ (p + 1) := Nat.two_pow_pos (p + 1)
    obtain ⟨f, rfl⟩ : ∃ f, fuel = f + 1 := ⟨fuel - 1, by omega⟩
    have hdiv : 2 ^ (p + 1) / 2 = 2 ^ p := by
      rw [Nat.pow_succ]; exact Nat.mul_div_cancel _ (by omega)
    have hplt : 2 ^ p < 2 ^ (p + 1) := Nat.pow_lt_pow_succ (by omega)
    by_cases hg : N ≤ 2 ^ p
    · obtain ⟨q, hq, hr⟩ := ih f (by omega)
      refine ⟨q, Nat.le_succ_of_le hq, ?_⟩
      simp only [shrinkThreadsFuel, hdiv]
      rw [if_pos hg]
      exact hr
    · refine ⟨p + 1, le_refl _, ?_⟩
      simp only [shrinkThreadsFuel, hdiv]
      rw [if_neg hg]

/-- Starting from a power of two, the multi-block shrink loop returns a
(smaller or equal) power of two, for positive work. -/
theorem shrinkBlocksFuel_pow2 {mt N : Nat} (hN : 1 ≤ N) :
    ∀ p fuel, 2 ^ p < fuel →
      ∃ q, q ≤ p ∧ shrinkBlocksFuel mt N fuel (2 ^ p) = some (2 ^ q) := by
  intro p
  induction p with
  | zero =>
    intro fuel hf
    obtain ⟨f, rfl⟩ : ∃ f, fuel = f + 1 := ⟨fuel - 1, by omega⟩
    refine ⟨0, le_refl 0, ?_⟩
    simp only [shrinkBlocksFuel]
    rw [if_neg (by intro h; simp at h; omega)]
  | succ p ih =>
    intro fuel hf
    have hpos : 0 < 2 ^ (p + 1) := Nat.two_pow_pos (p + 1)
    obtain ⟨f, rfl⟩ : ∃ f, fuel = f + 1 := ⟨fuel - 1, by omega⟩
    have hdiv : 2 ^ (p + 1) / 2 = 2 ^ p := by
      rw [Nat.pow_succ]; exact Nat.mul_div_cancel _ (by omega)
    have hplt : 2 ^ p < 2 ^ (p + 1) := Nat.pow_lt_pow_succ (by omega)
    by_cases hg : N ≤ mt * 2 ^ p
    · obtain ⟨q, hq, hr⟩ := ih f (by omega)
      refine ⟨q, Nat.le_succ_of_le hq, ?_⟩
      simp only [shrinkBlocksFuel, hdiv]
      rw [if_pos hg]
      exact hr
    · refine ⟨p + 1, le_refl _, ?_⟩
      simp only [shrinkBlocksFuel, hdiv]
      rw [if_neg hg]

/-! ### Grid-stride loop lemmas -/

/-- Occurrence count of an index in one lane's grid-stride list: `x` is
visited by the lane starting at `g` exactly when `x` lies in the arithmetic
progression `g, g + P, g + 2·P, …` and below the work count, and then exactly
once.  The fuel only needs to cover the remaining distance `N - g`. -/
theorem strideIndicesFuel_count {P N : Nat} (hP : 0 < P) :
    ∀ fuel g x, N - g ≤ fuel →
      (strideIndicesFuel P N fuel g).count x =
        if g ≤ x ∧ x < N ∧ P ∣ (x - g) then 1 else 0 := by
  intro fuel
  induction fuel with
  | zero =>
    intro g x hf
    have hg : N ≤ g := by omega
    rw [if_neg (by rintro ⟨h1, h2, _⟩; omega)]
    rfl
  | succ fuel ih =>
    intro g x hf
    by_cases hg : g < N
    · simp only [strideIndicesFuel, if_pos hg]
      rw [List.count_cons, ih (g + P) x (by omega)]
      by_cases hx : g = x
      · subst hx
        rw [if_pos (show g ≤ g ∧ g < N ∧ P ∣ g - g from ⟨le_refl g, hg, by simp⟩)]
        rw [if_neg (show ¬ (g + P ≤ g ∧ g < N ∧ P ∣ g - (g + P)) from by
          rintro ⟨h1, _, _⟩; omega)]
        simp
      · have hbeq : (g == x) = false := by simp [hx]
        rw [hbeq]
        simp only [Bool.false_eq_true, if_false, Nat.add_zero]
        by_cases hc : g + P ≤ x ∧ x < N ∧ P ∣ (x - (g + P))
        · obtain ⟨hle, hlt, k, hk⟩ := hc
          rw [if_pos ⟨hle, hlt, ⟨k, hk⟩⟩]
          rw [if_pos]
          refine ⟨by omega, hlt, ⟨k + 1, ?_⟩⟩
          have hx' : x = (g + P) + P * k := by omega
          rw [Nat.mul_add, Nat.mul_one]
          omega
        · rw [if_neg hc, if_neg]
          rintro ⟨hle, hlt, k, hk⟩
          apply hc
          have hgx : g < x := by omega
          rcases k with _ | k
          · rw [Nat.mul_zero] at hk; omega
          · have hx' : x = g + P * (k + 1) := by omega
            have hx'' : x = g + P * k + P := by rw [Nat.mul_add, Nat.mul_one] at hx'; omega
            exact ⟨by omega, hlt, ⟨k, by omega⟩⟩
    · simp only [strideIndicesFuel, if_neg hg]
      rw [if_neg (by rintro ⟨h1, h2, _⟩; omega)]
      rfl

/-- Occurrence count in a lane's full index list. -/
theorem strideIndices_count {P : Nat} (hP : 0 < P) (g N x : Nat) :
    (strideIndices g P N).count x =
      if g ≤ x ∧ x < N ∧ P ∣ (x - g) then 1 else 0 :=
  strideIndicesFuel_count hP N g x (Nat.sub_le N g)

/-- Membership in a lane's index list. -/
theorem strideIndices_mem {P : Nat} (hP : 0 < P) {g N x : Nat} :
    x ∈ strideIndices g P N ↔ g ≤ x ∧ x < N ∧ P ∣ (x - g) := by
  rw [← List.count_pos_iff (a := x), strideIndices_count hP]
  by_cases h : g ≤ x ∧ x < N ∧ P ∣ (x - g) <;> simp [h]

/-- Each lane visits each of its indices once: the grid-stride list has no
duplicates. -/
theorem strideIndices_nodup {P : Nat} (hP : 0 < P) (g N : Nat) :
    (strideIndices g P N).Nodup := by
  rw [List.nodup_iff_count_le_one]
  intro x
  rw [strideIndices_count hP]
  by_cases h : g ≤ x ∧ x < N ∧ P ∣ (x - g) <;> simp [h]

/-- The arithmetic-progression membership condition in explicit form. -/
theorem stride_arith {P g x : Nat} :
    (∃ k, x = g + P * k) ↔ g ≤ x ∧ P ∣ (x - g) := by
  constructor
  · rintro ⟨k, rfl⟩
    exact ⟨Nat.le_add_right _ _, ⟨k, by omega⟩⟩
  · rintro ⟨hle, k, hk⟩
    exact ⟨k, by omega⟩

/-- Among the lanes `g < P`, the one owning index `x` is exactly `x % P`. -/
theorem stride_owner_unique {P g x : Nat} (hP : 0 < P) (hg : g < P) :
    (g ≤ x ∧ P ∣ (x - g)) ↔ g = x % P := by
  constructor
  · rintro ⟨hle, k, hk⟩
    have hx : x = g + P * k := by omega
    rw [hx, Nat.add_mul_mod_self_left, Nat.mod_eq_of_lt hg]
  · rintro rfl
    refine ⟨Nat.mod_le x P, ⟨x / P, ?_⟩⟩
    have := Nat.div_add_mod x P
    omega

/-- Summing an equality indicator over `range n` yields `1` when the target
lies below `n`. -/
theorem sum_indicator_range {g0 : Nat} :
    ∀ n, g0 < n → ((List.range n).map (fun g => if g = g0 then 1 else 0)).sum = 1 := by
  intro n
  induction n with
  | zero => omega
  | succ n ih =>
    intro h
    rw [List.range_succ, List.map_append, List.sum_append]
    by_cases hg : g0 < n
    · rw [ih hg]
      have hne : ¬ (n = g0) := by omega
      simp [hne]
    · have heq : g0 = n := by omega
      subst heq
      have h0 : ((List.range g0).map (fun g => if g = g0 then 1 else 0)).sum = 0 := by
        apply List.sum_eq_zero
        intro x hx
        simp only [List.mem_map, List.mem_range] at hx
        obtain ⟨g, hglt, hgx⟩ := hx
        rw [if_neg (by omega)] at hgx
        omega
      rw [h0]
      simp

/-- Every index below the work count is visited by exactly one of the `P`
launched lanes. -/
theorem stride_cover_count {P N x : Nat} (hP : 0 < P) (hx : x < N) :
    ((List.range P).map (fun g => (strideIndices g P N).count x)).sum = 1 := by
  have hmap : (List.range P).map (fun g => (strideIndices g P N).count x)
      = (List.range P).map (fun g => if g = x % P then 1 else 0) := by
    apply List.map_congr_left
    intro g hg
    rw [List.mem_range] at hg
    rw [strideIndices_count hP]
    by_cases h : g = x % P
    · rw [if_pos h, if_pos]
      obtain ⟨h1, h2⟩ := (stride_owner_unique hP hg).mpr h
      exact ⟨h1, hx, h2⟩
    · rw [if_neg h, if_neg]
      rintro ⟨h1, _, h3⟩
      exact h ((stride_owner_unique hP hg).mp ⟨h1, h3⟩)
  rw [hmap]
  exact sum_indicator_range P (Nat.mod_lt x hP)

/-- The concatenation of all `P` lanes' grid-stride lists is a permutation of
the work domain `[0, N)`: full coverage, each index exactly once. -/
theorem stride_partition_perm {P N : Nat} (hP : 0 < P) :
    ((List.range P).map (fun g => strideIndices g P N)).flatten.Perm (List.range N) := by
  rw [List.perm_iff_count]
  intro x
  rw [List.count_flatten, List.map_map]
  simp only [Function.comp_def]
  by_cases hx : x < N
  · rw [stride_cover_count hP hx]
    symm
    exact List.count_eq_one_of_mem (List.nodup_range N) (List.mem_range.mpr hx)
  · have h1 : ((List.range P).map (fun g => (strideIndices g P N).count x)).sum = 0 := by
      apply List.sum_eq_zero
      intro y hy
      simp only [List.mem_map] at hy
      obtain ⟨g, _, hgy⟩ := hy
      rw [strideIndices_count hP, if_neg (by rintro ⟨_, h2, _⟩; omega)] at hgy
      omega
    rw [h1]
    symm
    rw [List.count_eq_zero]
    intro hmem
    rw [List.mem_range] at hmem
    omega

/-! ### Fold algebra for an associative commutative combine -/

/-- Associativity lets an element be pulled out of a left fold. -/
theorem foldl_join_pull {α : Type} {join : α → α → α}
    (hassoc : ∀ a b d, join (join a b) d = join a (join b d)) :
    ∀ (l : List α) (b x : α), l.foldl join (join b x) = join b (l.foldl join x) := by
  intro l
  induction l with
  | nil => intro b x; rfl
  | cons y l ih =>
    intro b x
    simp only [List.foldl_cons]
    rw [hassoc, ih]

/-- A fold from an arbitrary base splits off the base, when the fold's unit
`e` is a left identity and the combine commutes. -/
theorem foldl_join_of_base {α : Type} {join : α → α → α}
    (hassoc : ∀ a b d, join (join a b) d = join a (join b d))
    (hcomm : ∀ a b, join a b = join b a)
    {e : α} (he : ∀ a, join e a = a) :
    ∀ (l : List α) (b : α), l.foldl join b = join b (l.foldl join e) := by
  intro l b
  have h1 : join b e = b := by rw [hcomm]; exact he b
  calc l.foldl join b = l.foldl join (join b e) := by rw [h1]
    _ = join b (l.foldl join e) := foldl_join_pull hassoc l b e

/-- Folding the pairwise joins of two equally long lists equals joining the
two folds, for an associative commutative combine. -/
theorem foldl_zip_interchange {α : Type} {join : α → α → α}
    (hassoc : ∀ a b d, join (join a b) d = join a (join b d))
    (hcomm : ∀ a b, join a b = join b a) :
    ∀ (as bs : List α), as.length = bs.length → ∀ (a b : α),
      (List.zipWith join as bs).foldl join (join a b)
        = join (as.foldl join a) (bs.foldl join b) := by
  intro as
  induction as with
  | nil =>
    intro bs h a b
    cases bs with
    | nil => rfl
    | cons y bs => simp at h
  | cons x as ih =>
    intro bs h a b
    cases bs with
    | nil => simp at h
    | cons y bs =>
      simp only [List.zipWith_cons_cons, List.foldl_cons]
      have hshuffle : join (join a b) (join x y) = join (join a x) (join b y) := by
        rw [hassoc, ← hassoc b x y, hcomm b x, hassoc x b y, ← hassoc a x (join b y)]
      rw [hshuffle, ih bs (by simpa using h)]

/-! ### Tree-combiner lemmas -/

/-- A zero offset leaves the loop state unchanged. -/
theorem treeLoopFuel_j_zero {α : Type} (join : α → α → α) (fuel : Nat) (s : Nat → α) :
    treeLoopFuel join fuel 0 s = s := by
  cases fuel <;> rfl

/-- The result of the tree loop does not depend on the fuel once the fuel
covers the offset, since the offset at least halves every iteration. -/
theorem treeLoopFuel_mono {α : Type} (join : α → α → α) :
    ∀ (j f1 f2 : Nat) (s : Nat → α), j ≤ f1 → j ≤ f2 →
      treeLoopFuel join f1 j s = treeLoopFuel join f2 j s := by
  intro j
  induction j using Nat.strong_induction_on with
  | _ j ih =>
    intro f1 f2 s h1 h2
    cases j with
    | zero => rw [treeLoopFuel_j_zero, treeLoopFuel_j_zero]
    | succ jj =>
      obtain ⟨a, rfl⟩ : ∃ a, f1 = a + 1 := ⟨f1 - 1, by omega⟩
      obtain ⟨b, rfl⟩ : ∃ b, f2 = b + 1 := ⟨f2 - 1, by omega⟩
      show treeLoopFuel join a ((jj + 1) / 2) (treeStep join s ((jj + 1) / 2))
        = treeLoopFuel join b ((jj + 1) / 2) (treeStep join s ((jj + 1) / 2))
      exact ih ((jj + 1) / 2) (by omega) a b _ (by omega) (by omega)

/-- One unfolding of `reduce_shared_on_cuda`: halve the offset, then apply
the simultaneous combine round. -/
theorem reduce_shared_unfold {α : Type} (join : α → α → α) (j : Nat) (hj : 1 ≤ j)
    (s : Nat → α) :
    reduce_shared_on_cuda join j s
      = reduce_shared_on_cuda join (j / 2) (treeStep join s (j / 2)) := by
  obtain ⟨jj, rfl⟩ : ∃ jj, j = jj + 1 := ⟨j - 1, by omega⟩
  show treeLoopFuel join jj ((jj + 1) / 2) (treeStep join s ((jj + 1) / 2))
    = treeLoopFuel join ((jj + 1) / 2) ((jj + 1) / 2) (treeStep join s ((jj + 1) / 2))
  exact treeLoopFuel_mono join ((jj + 1) / 2) jj _ _ (by omega) (by omega)

/-- A single lane needs no combining: the tree loop returns slot 0. -/
theorem reduce_shared_single {α : Type} (join : α → α → α) (s : Nat → α) :
    reduce_shared_on_cuda join 1 s 0 = s 0 := rfl

/-- Applying one combine round to a contiguous index block below the offset
produces the pairwise joins with the mirrored block. -/
theorem treeStep_map_range' {α : Type} (join : α → α → α) (s : Nat → α) (m : Nat) :
    ∀ (n a : Nat), a + n ≤ m →
      (List.range' a n).map (treeStep join s m)
        = List.zipWith join ((List.range' a n).map s) ((List.range' (a + m) n).map s) := by
  intro n
  induction n with
  | zero => intro a h; rfl
  | succ n ih =>
    intro a h
    simp only [List.range'_succ, List.map_cons, List.zipWith_cons_cons]
    have h1 : treeStep join s m a = join (s a) (s (a + m)) := by
      unfold treeStep
      rw [if_pos (by omega)]
    have h2 : a + m + 1 = a + 1 + m := by omega
    rw [h1, h2, ih (a + 1) (by omega)]

/-- Doubling step for the tree combiner: folding the lanes of one combine
round over half the slots equals folding all slots, for an associative
commutative combine. -/
theorem specFoldLanes_double {α : Type} {join : α → α → α}
    (hassoc : ∀ a b d, join (join a b) d = join a (join b d))
    (hcomm : ∀ a b, join a b = join b a) (s : Nat → α) (M : Nat) :
    specFoldLanes join (treeStep join s (M + 1)) (M + 1)
      = specFoldLanes join s (2 * (M + 1)) := by
  unfold specFoldLanes
  have hstep0 : treeStep join s (M + 1) 0 = join (s 0) (s (M + 1)) := by
    unfold treeStep
    simp
  have hm1 : (M + 1) - 1 = M := by omega
  rw [hm1]
  have hmap := treeStep_map_range' join s (M + 1) M 1 (by omega)
  rw [hstep0, hmap]
  have hlen : ((List.range' 1 M).map s).length
      = ((List.range' (1 + (M + 1)) M).map s).length := by simp
  rw [foldl_zip_interchange hassoc hcomm _ _ hlen (s 0) (s (M + 1))]
  have h2m : 2 * (M + 1) - 1 = (M + 1) + M := by omega
  rw [h2m]
  have hsplit := List.range'_append 1 M (M + 1) 1
  have h1m : 1 + 1 * M = M + 1 := by omega
  rw [h1m] at hsplit
  rw [← hsplit, List.map_append, List.foldl_append]
  have hrm : List.range' (M + 1) (M + 1) = (M + 1) :: List.range' (M + 1 + 1) M :=
    List.range'_succ (M + 1) M 1
  rw [hrm]
  simp only [List.map_cons, List.foldl_cons]
  rw [foldl_join_pull hassoc]
  have hidx : 1 + (M + 1) = M + 1 + 1 := by omega
  rw [hidx]

/-- For a power-of-two lane count, the tree combiner leaves in lane 0's slot
the fold of all lanes' initial slot values, for any associative commutative
combine. -/
theorem reduce_shared_pow2 {α : Type} {join : α → α → α}
    (hassoc : ∀ a b d, join (join a b) d = join a (join b d))
    (hcomm : ∀ a b, join a b = join b a) :
    ∀ (k : Nat) (s : Nat → α),
      reduce_shared_on_cuda join (2 ^ k) s 0 = specFoldLanes join s (2 ^ k) := by
  intro k
  induction k with
  | zero => intro s; rfl
  | succ k ih =>
    intro s
    have hm1 : 1 ≤ 2 ^ k := Nat.one_le_two_pow
    have hm2 : 1 ≤ 2 ^ (k + 1) := Nat.one_le_two_pow
    have hdiv : 2 ^ (k + 1) / 2 = 2 ^ k := by
      rw [Nat.pow_succ]; exact Nat.mul_div_cancel _ (by omega)
    rw [reduce_shared_unfold join (2 ^ (k + 1)) hm2 s, hdiv, ih]
    obtain ⟨M, hM⟩ : ∃ M, 2 ^ k = M + 1 := ⟨2 ^ k - 1, by omega⟩
    rw [hM, specFoldLanes_double hassoc hcomm s M]
    congr 1
    omega
/-! ### Assembling the full pipeline -/

/-- Folding the functor's apply is folding the combine over the per-index
contributions, assuming the apply operation combines one contribution. -/
theorem applyFold_eq {α : Type} (f : ReduceFunctor α) (contrib : Nat → α)
    (happly : ∀ i a, f.apply i a = f.join a (contrib i)) :
    ∀ (l : List Nat) (b : α),
      l.foldl (fun a i => f.apply i a) b = (l.map contrib).foldl f.join b := by
  intro l
  induction l with
  | nil => intro b; rfl
  | cons x l ih =>
    intro b
    simp only [List.foldl_cons, List.map_cons]
    rw [happly, ih]

/-- The nonempty lane fold equals the fold from the identity over all lanes. -/
theorem specFoldLanes_base {α : Type} {join : α → α → α} {e : α}
    (he : ∀ a, join e a = a) (s : Nat → α) (M : Nat) :
    specFoldLanes join s (M + 1) = ((List.range (M + 1)).map s).foldl join e := by
  unfold specFoldLanes
  rw [List.range_eq_range', List.range'_succ]
  simp only [List.map_cons, List.foldl_cons, Nat.add_sub_cancel]
  rw [he]

/-- A fold over values that are themselves folds from the identity collapses
to a fold over the concatenation. -/
theorem fold_of_folds {α β : Type} {join : α → α → α}
    (hassoc : ∀ a b d, join (join a b) d = join a (join b d))
    (hcomm : ∀ a b, join a b = join b a)
    {e : α} (he : ∀ a, join e a = a) (h : β → List α) :
    ∀ (l : List β) (b : α),
      (l.map (fun x => (h x).foldl join e)).foldl join b
        = ((l.map h).flatten).foldl join b := by
  intro l
  induction l with
  | nil => intro b; rfl
  | cons x l ih =>
    intro b
    simp only [List.map_cons, List.foldl_cons, List.flatten_cons]
    rw [List.foldl_append, ih]
    congr 1
    rw [foldl_join_of_base hassoc hcomm he (h x) b]

/-- Flattening a nested decomposition of index lists. -/
theorem flatten_nested {β γ δ : Type} (h : γ → List δ) (idx : β → List γ) :
    ∀ (l : List β),
      (l.map (fun b => ((idx b).map h).flatten)).flatten
        = ((l.map idx).flatten.map h).flatten := by
  intro l
  induction l with
  | nil => rfl
  | cons x l ih =>
    simp only [List.map_cons, List.flatten_cons, List.map_append, List.flatten_append]
    rw [ih]

/-- The global lane indices of a `bc × T` launch, grouped by block, enumerate
`[0, T·bc)` in order. -/
theorem range_mul_flatten (T : Nat) :
    ∀ (bc : Nat),
      ((List.range bc).map (fun b => (List.range T).map (fun t => t + T * b))).flatten
        = List.range (T * bc) := by
  intro bc
  induction bc with
  | zero => simp
  | succ bc ih =>
    rw [List.range_succ, List.map_append, List.flatten_append, ih]
    simp only [List.map_cons, List.map_nil, List.flatten_cons, List.flatten_nil,
      List.append_nil]
    rw [Nat.mul_succ, List.range_add]
    congr 1
    apply List.map_congr_left
    intro t ht
    omega

/-- Permuting the folded list does not change the fold, for an associative
commutative combine. -/
theorem foldl_perm {α : Type} {join : α → α → α}
    (hassoc : ∀ a b d, join (join a b) d = join a (join b d))
    (hcomm : ∀ a b, join a b = join b a)
    {l1 l2 : List α} (hp : l1.Perm l2) (b : α) :
    l1.foldl join b = l2.foldl join b := by
  apply hp.foldl_eq'
  intro x _ y _ z
  rw [hassoc, hassoc, hcomm x y]

/-- The combined value of one block of a `blocks × 2^p` launch is the fold
of the contributions of all work indices owned by that block's lanes. -/
theorem block_value_fold {α : Type} (f : ReduceFunctor α) (contrib : Nat → α)
    (hassoc : ∀ a b d, f.join (f.join a b) d = f.join a (f.join b d))
    (hcomm : ∀ a b, f.join a b = f.join b a)
    (he : ∀ a, f.join f.init a = a)
    (happly : ∀ i a, f.apply i a = f.join a (contrib i))
    (blocks N b p : Nat) :
    run_reduce_functor_block_value f blocks (2 ^ p) N b
      = ((((List.range (2 ^ p)).map
            (fun t => strideIndices (t + 2 ^ p * b) (2 ^ p * blocks) N)).flatten).map
          contrib).foldl f.join f.init := by
  unfold run_reduce_functor_block_value
  rw [reduce_shared_pow2 hassoc hcomm]
  obtain ⟨M, hM⟩ : ∃ M, 2 ^ p = M + 1 :=
    ⟨2 ^ p - 1, by have := Nat.one_le_two_pow (n := p); omega⟩
  rw [hM, specFoldLanes_base he]
  have hlane : (List.range (M + 1)).map (kernelLaneSlots f blocks (M + 1) N b)
      = (List.range (M + 1)).map (fun t =>
          ((strideIndices (t + (M + 1) * b) ((M + 1) * blocks) N).map contrib).foldl
            f.join f.init) := by
    apply List.map_congr_left
    intro t ht
    unfold kernelLaneSlots laneValue
    rw [applyFold_eq f contrib happly]
  rw [hlane]
  rw [fold_of_folds hassoc hcomm he
    (fun t => (strideIndices (t + (M + 1) * b) ((M + 1) * blocks) N).map contrib)
    (List.range (M + 1)) f.init]
  congr 1
  rw [List.map_flatten, List.map_map]
  rfl

/-- Phase 2 over the phase-1 partial buffer of a `2^q × 2^p` launch yields
the sequential reference reduction, for an associative commutative combine
with identity and a per-index contribution form of apply. -/
theorem multi_value_fold {α : Type} (f : ReduceFunctor α) (contrib : Nat → α)
    (hassoc : ∀ a b d, f.join (f.join a b) d = f.join a (f.join b d))
    (hcomm : ∀ a b, f.join a b = f.join b a)
    (he : ∀ a, f.join f.init a = a)
    (happly : ∀ i a, f.apply i a = f.join a (contrib i))
    (N p q : Nat) :
    run_reduce_operator_result f.join (2 ^ q)
        (phase1PartialBuffer f (2 ^ q) (2 ^ p) N)
      = specSequentialReduce f N := by
  have hPpos : 0 < 2 ^ p * (2 ^ q) :=
    Nat.mul_pos (Nat.two_pow_pos p) (Nat.two_pow_pos q)
  unfold run_reduce_operator_result
  rw [reduce_shared_pow2 hassoc hcomm]
  obtain ⟨M, hM⟩ : ∃ M, 2 ^ q = M + 1 :=
    ⟨2 ^ q - 1, by have := Nat.one_le_two_pow (n := q); omega⟩
  rw [hM] at hPpos ⊢
  rw [specFoldLanes_base he]
  have hblock : (List.range (M + 1)).map (phase1PartialBuffer f (M + 1) (2 ^ p) N)
      = (List.range (M + 1)).map (fun b =>
          ((((List.range (2 ^ p)).map
              (fun t => strideIndices (t + 2 ^ p * b) (2 ^ p * (M + 1)) N)).flatten).map
            contrib).foldl f.join f.init) := by
    apply List.map_congr_left
    intro b hb
    exact block_value_fold f contrib hassoc hcomm he happly (M + 1) N b p
  rw [hblock]
  rw [fold_of_folds hassoc hcomm he
    (fun b => (((List.range (2 ^ p)).map
        (fun t => strideIndices (t + 2 ^ p * b) (2 ^ p * (M + 1)) N)).flatten).map contrib)
    (List.range (M + 1)) f.init]
  have hsw : ((List.range (M + 1)).map (fun b =>
        (((List.range (2 ^ p)).map
          (fun t => strideIndices (t + 2 ^ p * b) (2 ^ p * (M + 1)) N)).flatten).map
          contrib)).flatten
      = (((List.range (M + 1)).map (fun b =>
          ((List.range (2 ^ p)).map
            (fun t => strideIndices (t + 2 ^ p * b) (2 ^ p * (M + 1)) N)).flatten)).flatten).map
          contrib := by
    rw [List.map_flatten, List.map_map]
    rfl
  rw [hsw]
  have hlist : ((List.range (M + 1)).map (fun b =>
        ((List.range (2 ^ p)).map
          (fun t => strideIndices (t + 2 ^ p * b) (2 ^ p * (M + 1)) N)).flatten)).flatten
      = ((List.range (2 ^ p * (M + 1))).map
          (fun g => strideIndices g (2 ^ p * (M + 1)) N)).flatten := by
    have hinner : (List.range (M + 1)).map (fun b =>
          ((List.range (2 ^ p)).map
            (fun t => strideIndices (t + 2 ^ p * b) (2 ^ p * (M + 1)) N)).flatten)
        = (List.range (M + 1)).map (fun b =>
            (((List.range (2 ^ p)).map (fun t => t + 2 ^ p * b)).map
              (fun g => strideIndices g (2 ^ p * (M + 1)) N)).flatten) := by
      apply List.map_congr_left
      intro b hb
      rw [List.map_map]
      rfl
    rw [hinner]
    rw [flatten_nested (fun g => strideIndices g (2 ^ p * (M + 1)) N)
      (fun b => (List.range (2 ^ p)).map (fun t => t + 2 ^ p * b)) (List.range (M + 1))]
    rw [range_mul_flatten]
  rw [hlist]
  have hperm : ((((List.range (2 ^ p * (M + 1))).map
        (fun g => strideIndices g (2 ^ p * (M + 1)) N)).flatten).map contrib).Perm
      ((List.range N).map contrib) :=
    (stride_partition_perm hPpos).map contrib
  rw [foldl_perm hassoc hcomm hperm]
  rw [show specSequentialReduce f N = ((List.range N).map contrib).foldl f.join f.init from by
    unfold specSequentialReduce
    exact applyFold_eq f contrib happly _ _]

/-- The single-block launch of `1 × 2^p` lanes delivers the sequential
reference reduction. -/
theorem single_value_fold {α : Type} (f : ReduceFunctor α) (contrib : Nat → α)
    (hassoc : ∀ a b d, f.join (f.join a b) d = f.join a (f.join b d))
    (hcomm : ∀ a b, f.join a b = f.join b a)
    (he : ∀ a, f.join f.init a = a)
    (happly : ∀ i a, f.apply i a = f.join a (contrib i))
    (N p : Nat) :
    run_reduce_functor_block_value f 1 (2 ^ p) N 0 = specSequentialReduce f N := by
  have h := multi_value_fold f contrib hassoc hcomm he happly N p 0
  rw [show run_reduce_operator_result f.join (2 ^ 0)
      (phase1PartialBuffer f (2 ^ 0) (2 ^ p) N)
    = run_reduce_functor_block_value f 1 (2 ^ p) N 0 from rfl] at h
  exact h

/-- Master evaluation: for power-of-two device limits and a contribution
function whose combine is associative and commutative with `init` a left
identity and whose apply folds a fixed per-index contribution, both planner
paths deliver the sequential reference reduction for positive work, and the
run never completes for zero work. -/
theorem cuda_parallel_reduce_spec {α : Type} (f : ReduceFunctor α) (contrib : Nat → α)
    (hassoc : ∀ a b d, f.join (f.join a b) d = f.join a (f.join b d))
    (hcomm : ∀ a b, f.join a b = f.join b a)
    (he : ∀ a, f.join f.init a = a)
    (happly : ∀ i a, f.apply i a = f.join a (contrib i))
    (p q N : Nat) :
    cuda_parallel_reduce f (2 ^ p) (2 ^ q) N
      = if N = 0 then none else some (specSequentialReduce f N) := by
  by_cases hN : N = 0
  · subst hN
    rw [if_pos rfl]
    unfold cuda_parallel_reduce
    rw [if_pos (Nat.two_pow_pos p), shrinkThreadsFuel_zeroWork]
    rfl
  · rw [if_neg hN]
    have hN1 : 1 ≤ N := by omega
    unfold cuda_parallel_reduce
    by_cases hlt : N < 2 ^ p
    · rw [if_pos hlt]
      obtain ⟨r, hr, heq⟩ := shrinkThreadsFuel_pow2 hN1 p (2 ^ p + 1) (by omega)
      rw [heq, Option.map_some']
      rw [single_value_fold f contrib hassoc hcomm he happly N r]
    · rw [if_neg hlt]
      have hmin : min (2 ^ q) (2 ^ p) = 2 ^ (min q p) := by
        rcases le_total q p with h | h
        · rw [Nat.min_eq_left (Nat.pow_le_pow_right (by omega) h), Nat.min_eq_left h]
        · rw [Nat.min_eq_right (Nat.pow_le_pow_right (by omega) h), Nat.min_eq_right h]
      rw [hmin]
      obtain ⟨r, hr, heq⟩ := shrinkBlocksFuel_pow2 hN1 (min q p) (2 ^ (min q p) + 1)
        (by omega)
      rw [heq, Option.map_some']
      rw [multi_value_fold f contrib hassoc hcomm he happly N p r]

/-! ### Finalize invocation counting -/

/-- Lanes with positive index never pass the deliver guard. -/
theorem deliverGuard_filter : ∀ (n a : Nat), 1 ≤ a →
    (List.range' a n).filter (fun t => deliverGuard 1 t) = [] := by
  intro n
  induction n with
  | zero => intro a h; rfl
  | succ n ih =>
    intro a h
    rw [List.range'_succ, List.filter_cons]
    have hg : deliverGuard 1 a = false := by
      unfold deliverGuard
      simp
      omega
    rw [hg]
    simp only [Bool.false_eq_true, if_false]
    exact ih (a + 1) (by omega)

/-- A single-block launch invokes the deliver finalize's user callback on
exactly one lane (lane 0). -/
theorem deliverInvocations_one (threads : Nat) (h : 1 ≤ threads) :
    deliverInvocations 1 threads = 1 := by
  unfold deliverInvocations
  obtain ⟨m, rfl⟩ : ∃ m, threads = m + 1 := ⟨threads - 1, by omega⟩
  rw [List.range_eq_range', List.range'_succ, List.filter_cons]
  simp only [show deliverGuard 1 0 = true from rfl, if_true]
  rw [deliverGuard_filter m 1 (le_refl 1)]
  rfl

/-- Every completing run invokes the user's serial finalize exactly once. -/
theorem runUserInvocations_one {mt mb N : Nat} (h1 : 1 ≤ mt) (h2 : 1 ≤ mb)
    (hN : 1 ≤ N) : runUserInvocations mt mb N = some 1 := by
  unfold runUserInvocations
  by_cases hlt : N < mt
  · rw [if_pos hlt]
    obtain ⟨tc, htc, htc1, _⟩ := shrinkThreadsFuel_some hN mt (mt + 1) h1 (by omega)
    rw [htc, Option.map_some', deliverInvocations_one tc htc1]
  · rw [if_neg hlt]
    obtain ⟨bc, hbc, hbc1, _⟩ := shrinkBlocksFuel_some hN (min mb mt)
      (min mb mt + 1) (le_min h2 h1) (by omega)
    rw [hbc, Option.map_some']
    simp [storeInvocations, deliverInvocations_one bc hbc1]

/-! ### Claim theorems -/

/-- C1: for any work count `N` and any launched total lane count `P ≥ 1`,
the grid-stride loop of the work-distribution kernel gives lane `g` exactly
the indices `{g, g + P, g + 2P, …} ∩ [0, N)`, each lane's list has no
duplicates, and every index below `N` is owned by exactly one of the `P`
lanes (so the lanes' index sets are disjoint and cover `[0, N)`). -/
theorem claim_C1 (P N g i : Nat) (hP : 1 ≤ P) :
    (i ∈ strideIndices g P N ↔ (∃ k, i = g + P * k) ∧ i < N)
    ∧ (strideIndices g P N).Nodup
    ∧ (i < N →
        ((List.range P).map (fun g' => (strideIndices g' P N).count i)).sum = 1) := by
  refine ⟨?_, strideIndices_nodup hP g N, fun hi => stride_cover_count hP hi⟩
  rw [strideIndices_mem hP]
  constructor
  · rintro ⟨h1, h2, h3⟩
    exact ⟨stride_arith.mpr ⟨h1, h3⟩, h2⟩
  · rintro ⟨hk, h2⟩
    obtain ⟨h1, h3⟩ := stride_arith.mp hk
    exact ⟨h1, h2, h3⟩

/-- C1 witness: the coverage statement evaluated at `P = 3`, `N = 7`,
lane `g = 1`, index `i = 4`. -/
theorem claim_C1_witness :
    (4 ∈ strideIndices 1 3 7 ↔ (∃ k, 4 = 1 + 3 * k) ∧ 4 < 7)
    ∧ (strideIndices 1 3 7).Nodup
    ∧ (4 < 7 →
        ((List.range 3).map (fun g' => (strideIndices g' 3 7).count 4)).sum = 1) :=
  claim_C1 3 7 1 4 (by decide)

/-- C2 counterexample: the claim as stated is false — with the associative
commutative combine `Nat.add` and all three slots holding `1`, a lane count
of `L = 3` leaves `1 + 1 = 2` in lane 0's slot (slot 2 is dropped, since the
first halving jumps from `j = 3` to `j = 1`), not the fold `3` of all three
lanes. -/
theorem claim_C2_counterexample :
    ¬ (∀ (join : Nat → Nat → Nat) (s : Nat → Nat) (L : Nat), 1 ≤ L →
        (∀ a b d, join (join a b) d = join a (join b d)) →
        (∀ a b, join a b = join b a) →
        reduce_shared_on_cuda join L s 0 = specFoldLanes join s L) := by
  intro h
  have h3 := h (fun a b => a + b) (fun _ => 1) 3 (by omega)
    (fun a b d => by show a + b + d = a + (b + d); omega)
    (fun a b => by show a + b = b + a; omega)
  exact absurd h3 (by decide)

/-- C2 (amended): for every power-of-two lane count `L = 2^k` and every
initial slot assignment, the intra-block tree combiner terminates (it is a
total function of the model) leaving in lane 0's slot the fold of all `L`
lanes' initial values, for any associative commutative combine. -/
theorem claim_C2 {α : Type} (join : α → α → α) (s : Nat → α) (k : Nat)
    (hassoc : ∀ a b d, join (join a b) d = join a (join b d))
    (hcomm : ∀ a b, join a b = join b a) :
    reduce_shared_on_cuda join (2 ^ k) s 0 = specFoldLanes join s (2 ^ k) :=
  reduce_shared_pow2 hassoc hcomm k s

/-- C2 witness: four lanes holding `0, 1, 2, 3` combine under addition to
`6`. -/
theorem claim_C2_witness :
    reduce_shared_on_cuda (fun a b : Nat => a + b) (2 ^ 2) (fun i => i) 0
      = specFoldLanes (fun a b : Nat => a + b) (fun i => i) (2 ^ 2) :=
  claim_C2 (fun a b => a + b) (fun i => i) 2
    (fun a b d => by show a + b + d = a + (b + d); omega)
    (fun a b => by show a + b = b + a; omega)

/-- C3 counterexample: the claim as stated is false.  First conjunct: there
is an associative commutative counting functor (sum of one `1` per work item,
identity `0`) and device limits, all `≥ 1`, on which the delivered aggregates
differ — `maxLanesPerCluster = 3` delivers `4` for `workCount = 5` while
`maxLanesPerCluster = 4` delivers `5`.  Second conjunct: a power-of-two lane
limit does not suffice either, since a non-power-of-two `maxClusterCount = 3`
(against `4`) also changes the result at `workCount = 17`. -/
theorem claim_C3_counterexample :
    (¬ (∀ (f : ReduceFunctor Nat) (contrib : Nat → Nat),
        (∀ a b d, f.join (f.join a b) d = f.join a (f.join b d)) →
        (∀ a b, f.join a b = f.join b a) →
        (∀ a, f.join f.init a = a) →
        (∀ i a, f.apply i a = f.join a (contrib i)) →
        ∀ mt1 mb1 mt2 mb2 N, 1 ≤ mt1 → 1 ≤ mb1 → 1 ≤ mt2 → 1 ≤ mb2 →
          cuda_parallel_reduce f mt1 mb1 N = cuda_parallel_reduce f mt2 mb2 N))
    ∧ cuda_parallel_reduce sumRF 8 3 17 ≠ cuda_parallel_reduce sumRF 8 4 17 := by
  constructor
  · intro h
    have h5 := h sumRF (fun _ => 1)
      (fun a b d => by show a + b + d = a + (b + d); omega)
      (fun a b => by show a + b = b + a; omega)
      (fun a => by show 0 + a = a; omega)
      (fun i a => rfl)
      3 1 4 1 5 (by omega) (by omega) (by omega) (by omega)
    exact absurd h5 (by decide)
  · decide

/-- C3 (amended): for power-of-two device limits, the delivered aggregate is
the same for every choice of limits — both the single-block and the
multi-block two-phase path deliver the same value — for any contribution
function whose combine is associative and commutative, whose identity value
is neutral, and whose apply operation combines a fixed per-index
contribution. -/
theorem claim_C3 {α : Type} (f : ReduceFunctor α) (contrib : Nat → α)
    (hassoc : ∀ a b d, f.join (f.join a b) d = f.join a (f.join b d))
    (hcomm : ∀ a b, f.join a b = f.join b a)
    (he : ∀ a, f.join f.init a = a)
    (happly : ∀ i a, f.apply i a = f.join a (contrib i))
    (p1 q1 p2 q2 N : Nat) :
    cuda_parallel_reduce f (2 ^ p1) (2 ^ q1) N
      = cuda_parallel_reduce f (2 ^ p2) (2 ^ q2) N := by
  rw [cuda_parallel_reduce_spec f contrib hassoc hcomm he happly p1 q1 N,
    cuda_parallel_reduce_spec f contrib hassoc hcomm he happly p2 q2 N]

/-- C3 witness: the counting functor on `workCount = 5` delivers the same
aggregate for limits `(2, 1)` and `(4, 2)`. -/
theorem claim_C3_witness :
    cuda_parallel_reduce sumRF (2 ^ 1) (2 ^ 0) 5
      = cuda_parallel_reduce sumRF (2 ^ 2) (2 ^ 1) 5 :=
  claim_C3 sumRF (fun _ => 1)
    (fun a b d => by show a + b + d = a + (b + d); omega)
    (fun a b => by show a + b = b + a; omega)
    (fun a => by show 0 + a = a; omega)
    (fun i a => rfl)
    1 0 2 1 5

/-- C4 evidence: at `workCount = 0`, the single-block shrink loop
`while (work_count <= thread_count >> 1)` never exits (the guard `0 <= _`
always holds on unsigned values), whatever fuel it is given, so
`cuda_parallel_reduce` never reaches a kernel launch and delivers nothing —
in particular it does not deliver the identity value. -/
theorem claim_C4_bug :
    (∀ fuel tc, shrinkThreadsFuel 0 fuel tc = none)
    ∧ (∀ (α : Type) (f : ReduceFunctor α) (maxThreads maxBlocks : Nat),
        cuda_parallel_reduce f maxThreads maxBlocks 0 = none) := by
  refine ⟨shrinkThreadsFuel_zeroWork, ?_⟩
  intro α f mt mb
  unfold cuda_parallel_reduce
  by_cases h : (0 : Nat) < mt
  · rw [if_pos h, shrinkThreadsFuel_zeroWork]
    rfl
  · rw [if_neg h, shrinkBlocksFuel_zeroWork]
    rfl

/-- C5 evidence: at `workCount = 0` both shrink loops of the launch planner
fail to terminate for every fuel bound (their guards always hold on unsigned
values), so the planner never produces a launch plan — contradicting the
claim that the loops terminate for every work count with counts in
`[1, limit]`. -/
theorem claim_C5_bug :
    (∀ fuel tc, shrinkThreadsFuel 0 fuel tc = none)
    ∧ (∀ mt fuel bc, shrinkBlocksFuel mt 0 fuel bc = none)
    ∧ (∀ (allocOk : Bool) (mt mb : Nat),
        cuda_parallel_reduce_actions allocOk mt mb 0 = none) := by
  refine ⟨shrinkThreadsFuel_zeroWork, shrinkBlocksFuel_zeroWork, ?_⟩
  intro ok mt mb
  unfold cuda_parallel_reduce_actions
  by_cases h : (0 : Nat) < mt
  · rw [if_pos h, shrinkThreadsFuel_zeroWork]
    rfl
  · rw [if_neg h, shrinkBlocksFuel_zeroWork]
    rfl

/-- C6: whenever `workCount ≥ maxLanesPerCluster` the planner takes the
multi-block path: the block count comes from `min maxBlocks maxThreads`
shrunk by the halving loop (staying in `[1, min maxBlocks maxThreads]`), and
the host actions are exactly: allocate a partial-aggregate buffer of
`blockCount` slots, launch phase 1 with `blockCount × maxThreads` lanes and
the store finalize, launch phase 2 with `1 × blockCount` lanes and the
deliver finalize, deallocate — one allocation and one deallocation.  The
delivered aggregate is phase 2's tree combine over the phase-1 partial
buffer, whose slot `b` is block `b`'s combined partial aggregate. -/
theorem claim_C6 {α : Type} (f : ReduceFunctor α) (maxThreads maxBlocks N : Nat)
    (h1 : 1 ≤ maxThreads) (h2 : 1 ≤ maxBlocks) (hw : maxThreads ≤ N) :
    ∃ bc, shrinkBlocksFuel maxThreads N (min maxBlocks maxThreads + 1)
        (min maxBlocks maxThreads) = some bc
      ∧ 1 ≤ bc ∧ bc ≤ min maxBlocks maxThreads
      ∧ cuda_parallel_reduce_actions true maxThreads maxBlocks N
          = some ([PlanAction.allocBuf bc,
                   PlanAction.launchKernel bc maxThreads FinalizeKind.store,
                   PlanAction.launchKernel 1 bc FinalizeKind.deliver,
                   PlanAction.deallocBuf], true)
      ∧ ([PlanAction.allocBuf bc,
          PlanAction.launchKernel bc maxThreads FinalizeKind.store,
          PlanAction.launchKernel 1 bc FinalizeKind.deliver,
          PlanAction.deallocBuf].countP (fun a => a.isAlloc) = 1
        ∧ [PlanAction.allocBuf bc,
           PlanAction.launchKernel bc maxThreads FinalizeKind.store,
           PlanAction.launchKernel 1 bc FinalizeKind.deliver,
           PlanAction.deallocBuf].countP (fun a => a.isDealloc) = 1)
      ∧ cuda_parallel_reduce f maxThreads maxBlocks N
          = some (run_reduce_operator_result f.join bc
              (phase1PartialBuffer f bc maxThreads N))
      ∧ (∀ b, phase1PartialBuffer f bc maxThreads N b
          = run_reduce_functor_block_value f bc maxThreads N b) := by
  have hN1 : 1 ≤ N := le_trans h1 hw
  obtain ⟨bc, hbc, hbc1, hbc2⟩ := shrinkBlocksFuel_some hN1 (min maxBlocks maxThreads)
    (min maxBlocks maxThreads + 1) (le_min h2 h1) (by omega)
  refine ⟨bc, hbc, hbc1, hbc2, ?_, ⟨rfl, rfl⟩, ?_, fun b => rfl⟩
  · unfold cuda_parallel_reduce_actions
    rw [if_neg (by omega), hbc, Option.map_some']
    rfl
  · unfold cuda_parallel_reduce
    rw [if_neg (by omega), hbc, Option.map_some']

/-- C6 witness: the multi-block sequence at `maxThreads = 2`, `maxBlocks = 3`,
`workCount = 4` (the shrink loop yields `blockCount = 2`). -/
theorem claim_C6_witness :
    ∃ bc, shrinkBlocksFuel 2 4 (min 3 2 + 1) (min 3 2) = some bc
      ∧ 1 ≤ bc ∧ bc ≤ min 3 2
      ∧ cuda_parallel_reduce_actions true 2 3 4
          = some ([PlanAction.allocBuf bc,
                   PlanAction.launchKernel bc 2 FinalizeKind.store,
                   PlanAction.launchKernel 1 bc FinalizeKind.deliver,
                   PlanAction.deallocBuf], true)
      ∧ ([PlanAction.allocBuf bc,
          PlanAction.launchKernel bc 2 FinalizeKind.store,
          PlanAction.launchKernel 1 bc FinalizeKind.deliver,
          PlanAction.deallocBuf].countP (fun a => a.isAlloc) = 1
        ∧ [PlanAction.allocBuf bc,
           PlanAction.launchKernel bc 2 FinalizeKind.store,
           PlanAction.launchKernel 1 bc FinalizeKind.deliver,
           PlanAction.deallocBuf].countP (fun a => a.isDealloc) = 1)
      ∧ cuda_parallel_reduce sumRF 2 3 4
          = some (run_reduce_operator_result sumRF.join bc
              (phase1PartialBuffer sumRF bc 2 4))
      ∧ (∀ b, phase1PartialBuffer sumRF bc 2 4 b
          = run_reduce_functor_block_value sumRF bc 2 4 b) :=
  claim_C6 sumRF 2 3 4 (by decide) (by decide) (by decide)

/-- C7 counterexample: the claim as stated is false.  With the counting
functor (associative, commutative, neutral identity) at device limits
`maxThreads = 3`, `maxBlocks = 1` and `workCount = 5`, the callback is indeed
invoked exactly once, but its argument is not the fully combined aggregate:
the run delivers `4` while the combine of all five contributions is `5`. -/
theorem claim_C7_counterexample :
    ¬ (∀ (f : ReduceFunctor Nat) (contrib : Nat → Nat),
        (∀ a b d, f.join (f.join a b) d = f.join a (f.join b d)) →
        (∀ a b, f.join a b = f.join b a) →
        (∀ a, f.join f.init a = a) →
        (∀ i a, f.apply i a = f.join a (contrib i)) →
        ∀ mt mb N, 1 ≤ mt → 1 ≤ mb → 1 ≤ N →
          runUserInvocations mt mb N = some 1
          ∧ cuda_parallel_reduce f mt mb N = some (specSequentialReduce f N)) := by
  intro h
  have h5 := (h sumRF (fun _ => 1)
    (fun a b d => by show a + b + d = a + (b + d); omega)
    (fun a b => by show a + b = b + a; omega)
    (fun a => by show 0 + a = a; omega)
    (fun i a => rfl)
    3 1 5 (by omega) (by omega) (by omega)).2
  exact absurd h5 (by decide)

/-- C7 (amended): in every complete run the user's serial finalize callback
is invoked exactly once, only under the guard `gridDim == 1 && threadIdx == 0`
(so only in a single-block launch's lane 0); phase 1's store finalize never
invokes it; and the argument it receives is the fully combined aggregate when
the device limits are powers of two. -/
theorem claim_C7 {α : Type} (f : ReduceFunctor α) (contrib : Nat → α)
    (hassoc : ∀ a b d, f.join (f.join a b) d = f.join a (f.join b d))
    (hcomm : ∀ a b, f.join a b = f.join b a)
    (he : ∀ a, f.join f.init a = a)
    (happly : ∀ i a, f.apply i a = f.join a (contrib i))
    (p q N : Nat) (hN : 1 ≤ N) :
    runUserInvocations (2 ^ p) (2 ^ q) N = some 1
    ∧ cuda_parallel_reduce f (2 ^ p) (2 ^ q) N = some (specSequentialReduce f N)
    ∧ (∀ gd t, deliverGuard gd t = true → gd = 1 ∧ t = 0)
    ∧ (∀ blocks threads, storeInvocations blocks threads = 0) := by
  refine ⟨runUserInvocations_one (Nat.two_pow_pos p) (Nat.two_pow_pos q) hN,
    ?_, ?_, fun _ _ => rfl⟩
  · rw [cuda_parallel_reduce_spec f contrib hassoc hcomm he happly p q N,
      if_neg (by omega)]
  · intro gd t hg
    unfold deliverGuard at hg
    simp at hg
    exact hg

/-- C7 witness: the counting functor at limits `(4, 1)`, `workCount = 5`. -/
theorem claim_C7_witness :
    runUserInvocations (2 ^ 2) (2 ^ 0) 5 = some 1
    ∧ cuda_parallel_reduce sumRF (2 ^ 2) (2 ^ 0) 5
        = some (specSequentialReduce sumRF 5)
    ∧ (∀ gd t, deliverGuard gd t = true → gd = 1 ∧ t = 0)
    ∧ (∀ blocks threads, storeInvocations blocks threads = 0) :=
  claim_C7 sumRF (fun _ => 1)
    (fun a b d => by show a + b + d = a + (b + d); omega)
    (fun a b => by show a + b = b + a; omega)
    (fun a => by show 0 + a = a; omega)
    (fun i a => rfl)
    2 0 5 (by omega)

/-- C8: with `W` the natural word count of the value type and 32 memory
banks, the aggregate slot's storage array has `W + 1` words when `W` is an
exact multiple of 32 and `W` words otherwise, and its size is never an exact
multiple of the bank count. -/
theorem claim_C8 (byteSize : Nat) :
    (sharedStorageWords byteSize
        = if CudaWordCount byteSize % sharedMemoryBanks = 0
          then CudaWordCount byteSize + 1 else CudaWordCount byteSize)
    ∧ sharedStorageWords byteSize % sharedMemoryBanks ≠ 0 := by
  unfold sharedStorageWords sharedMemoryBanks
  constructor
  · by_cases h : CudaWordCount byteSize % 32 = 0 <;> simp [h]
  · by_cases h : CudaWordCount byteSize % 32 = 0 <;> simp [h] <;> omega

/-- C9: when allocation of the partial-aggregate buffer fails in the
multi-block path, the failure is reported to the caller with no kernel
launched and no allocation outstanding (the action trace is empty).
The allocator itself is external; its throwing failure contract is modelled
from the spec. -/
theorem claim_C9 (maxThreads maxBlocks N : Nat)
    (h1 : 1 ≤ maxThreads) (h2 : 1 ≤ maxBlocks) (hw : maxThreads ≤ N) :
    ∃ acts, cuda_parallel_reduce_actions false maxThreads maxBlocks N
        = some (acts, false)
      ∧ acts = []
      ∧ (∀ a ∈ acts, a.isLaunch = false)
      ∧ acts.countP (fun a => a.isAlloc) = acts.countP (fun a => a.isDealloc) := by
  have hN1 : 1 ≤ N := le_trans h1 hw
  obtain ⟨bc, hbc, _, _⟩ := shrinkBlocksFuel_some hN1 (min maxBlocks maxThreads)
    (min maxBlocks maxThreads + 1) (le_min h2 h1) (by omega)
  refine ⟨[], ?_, rfl, by simp, rfl⟩
  unfold cuda_parallel_reduce_actions
  rw [if_neg (by omega), hbc, Option.map_some']
  rfl

/-- C9 witness: allocation failure at limits `(1, 1)`, `workCount = 1`. -/
theorem claim_C9_witness :
    ∃ acts, cuda_parallel_reduce_actions false 1 1 1 = some (acts, false)
      ∧ acts = []
      ∧ (∀ a ∈ acts, a.isLaunch = false)
      ∧ acts.countP (fun a => a.isAlloc) = acts.countP (fun a => a.isDealloc) :=
  claim_C9 1 1 1 (by decide) (by decide) (by decide)

/-- C10: the two public entry points agree — the callback form applies the
finalize sink exactly to the aggregate that the value-returning form returns
(both delegate to the same `cuda_parallel_reduce`; the value form only adds a
device-side holder written by the sink and copied back). -/
theorem claim_C10 {α σ : Type} (f : ReduceFunctor α) (sink : α → σ → σ) (s0 : σ)
    (maxThreads maxBlocks N : Nat) :
    parallel_reduce_run_finalize f sink s0 maxThreads maxBlocks N
      = (parallel_reduce_run_value f maxThreads maxBlocks N).map
          (fun v => sink v s0) := by
  unfold parallel_reduce_run_finalize parallel_reduce_run_value cudaParallelReduceWith
  rcases hO : cuda_parallel_reduce f maxThreads maxBlocks N with _ | v <;> simp [hO]
